import Mathlib

/-!
Verification of the g3lobster core against its specification.

Shallow embedding of the relevant parts of the source:
- `g3lobster/memory/sessions.py` (SessionStore)
- `g3lobster/memory/compactor.py` (CompactionEngine.maybe_compact)
- `g3lobster/memory/procedures.py` (decay, Procedure.effective_weight,
  ProcedureStore.match_query, CandidateStore.ingest)
- `g3lobster/agents/subagent_registry.py` (register_run, check_timeouts)
- `g3lobster/agents/registry.py` (RegisteredAgent.assign)

Machine reals (Python floats) are modelled on `ℚ` where the code only ever
adds/compares, and on `ℝ` where the code takes transcendental powers
(the 30-day half-life decay).  Dates (ISO strings in the code) are modelled
as integers counting days; timestamps as rationals counting seconds.
-/

namespace G3

/-! ## Session entries (`sessions.py`)

A JSONL session line is either a `message` payload
(`{"type": "message", "timestamp": ..., "message": {"role":..., "content":...},
"metadata"?}`) or a `compaction` record
(`{"type": "compaction", "timestamp", "summary", "compacted_messages",
"kept_messages", "kept_from"}`).  The optional metadata dict is carried as an
opaque `Option String`. -/
inductive SEntry where
  | message (timestamp role content : String) (metadata : Option String)
  | compaction (timestamp summary : String) (compactedMessages keptMessages : Nat)
      (keptFrom : String)
  deriving DecidableEq, Repr

/-- `entry.get("type") == "message"`. -/
def SEntry.isMessage : SEntry → Bool
  | .message .. => true
  | .compaction .. => false

/-- Per-session-key slice of a `SessionStore`: the JSONL file for this key
(`none` = file does not exist) and this key's entry of the
`_message_counts` cache (`none` = key absent from the dict).  All operations
address the session through the same sanitized key, so the single-key slice
is closed under the store's operations. -/
structure SessionState where
  file : Option (List SEntry)
  cache : Option Nat
  deriving DecidableEq, Repr

/-- `_iter_entries`: a missing file yields no entries. -/
def fileEntries : Option (List SEntry) → List SEntry
  | none => []
  | some es => es

/-- `_count_messages_in_path`. -/
def countMessages (entries : List SEntry) : Nat :=
  (entries.filter SEntry.isMessage).length

/-- `SessionStore.append_message`: append one `message` payload to the file,
then update the cached count (`+1` if cached, full recount if the file
already existed, else `1`). -/
def append_message (s : SessionState) (timestamp role content : String)
    (metadata : Option String) : SessionState :=
  let payload := SEntry.message timestamp role content metadata
  let existedBefore := s.file.isSome
  let newFile := fileEntries s.file ++ [payload]
  let newCache :=
    match s.cache with
    | some c => c + 1
    | none => if existedBefore then countMessages newFile else 1
  { file := some newFile, cache := some newCache }

/-- `SessionStore.read_session` (no limit). -/
def read_session (s : SessionState) : List SEntry :=
  fileEntries s.file

/-- `SessionStore.read_messages` with `limit=None`: filters message entries
and refreshes the cached count. -/
def read_messages_all (s : SessionState) : List SEntry × SessionState :=
  let msgs := (read_session s).filter SEntry.isMessage
  (msgs, { s with cache := some msgs.length })

/-! ## `SessionStore.rewrite_session`

The code writes every entry to a fresh temp file in the session directory
(counting `message` entries as it goes), fsyncs, then `os.replace`s the temp
file over the session file; on any exception it unlinks the temp file and
re-raises.  `os.replace` is atomic: the target path either keeps its old
contents or receives the complete temp contents.  Faults are injected as:
`writeBudget` = number of entry writes that succeed before the temp write
fails (`≥ entries.length` = all writes succeed), and flags for fsync and
rename.  The run returns `.ok` with the post-state on success and `.error`
with the (unchanged) prior state when it raises. -/

/-- The temp-file write loop of `rewrite_session`: writes entries one by one,
accumulating the temp contents and the running `message_count`, failing once
the budget is exhausted. -/
def rwLoop (temp : List SEntry) (rest : List SEntry) (count : Nat)
    (budget : Nat) : Option (List SEntry × Nat) :=
  match rest, budget with
  | [], _ => some (temp, count)
  | _ :: _, 0 => none
  | e :: rest, b + 1 =>
      rwLoop (temp ++ [e]) rest (count + if e.isMessage then 1 else 0) b

/-- `SessionStore.rewrite_session` under fault injection. -/
def rewrite_session_run (s : SessionState) (entries : List SEntry)
    (writeBudget : Nat) (fsyncOk replaceOk : Bool) :
    Except SessionState SessionState :=
  match rwLoop [] entries 0 writeBudget with
  | none => .error s
  | some (tempContent, msgCount) =>
      if fsyncOk then
        if replaceOk then
          -- os.replace succeeded: target file = temp contents;
          -- only now is the cache entry assigned (line after the try block).
          .ok { file := some tempContent, cache := some msgCount }
        else .error s
      else .error s

/-- The fault-free rewrite (used by the compactor model, whose claims
concern the success path). -/
def rewrite_session (s : SessionState) (entries : List SEntry) : SessionState :=
  { file := some entries, cache := some (countMessages entries) }

/-- `SessionStore.message_count`: cached count, recounting (and caching)
on a miss. -/
def message_count (s : SessionState) : Nat × SessionState :=
  match s.cache with
  | some c => (c, s)
  | none =>
      let c := countMessages (fileEntries s.file)
      (c, { s with cache := some c })

/-! ## Compaction engine (`compactor.py`) -/

/-- The compaction parameters after the constructor's clamping. -/
structure EngineParams where
  threshold : Nat
  keepFrac : ℚ
  deriving DecidableEq, Repr

/-- `CompactionEngine.__init__`:
`compact_threshold = max(1, int(compact_threshold))`,
`compact_keep_ratio = min(0.9, max(0.05, float(compact_keep_ratio)))`. -/
def mkEngine (t : ℤ) (r : ℚ) : EngineParams :=
  { threshold := (max 1 t).toNat, keepFrac := min (9/10) (max (1/20) r) }

/-- The range every constructed engine's parameters lie in. -/
def EngineParams.Valid (p : EngineParams) : Prop :=
  1 ≤ p.threshold ∧ 1/20 ≤ p.keepFrac ∧ p.keepFrac ≤ 9/10

/-- The message entries of a session file. -/
def sessionMessages (s : SessionState) : List SEntry :=
  (read_session s).filter SEntry.isMessage

/-- `keep_count = max(1, int(math.ceil(message_count * self.compact_keep_ratio)))`.
The float ratio is modelled as a rational. -/
def keepOf (p : EngineParams) (n : Nat) : Nat :=
  max 1 (Nat.ceil ((n : ℚ) * p.keepFrac))

/-- `CompactionEngine.maybe_compact` (no explicit `message_count` argument),
acting on the session-state slice.  `summarize` models
`_summarize_messages` applied to the compacted span; that helper catches
summarizer failures and substitutes a metadata-only fallback, so it is a
total function.  The candidate extraction/ingestion performed after the
rewrite only touches the candidate store and PROCEDURES.md, never the
session file, and `after_compact` failures are caught, so the session slice
of the behaviour is exactly what is modelled here (success path of the
rewrite; a rewrite failure propagates, see `rewrite_session_run`). -/
def maybe_compact (p : EngineParams) (summarize : List SEntry → String)
    (timestamp : String) (s : SessionState) : Bool × SessionState :=
  let mc := message_count s
  let currentCount := mc.1
  let s1 := mc.2
  if currentCount < p.threshold then (false, s1)
  else
    let rm := read_messages_all s1
    let msgs := rm.1
    let s2 := rm.2
    if msgs.length < p.threshold then (false, s2)
    else
      let keepCount := keepOf p msgs.length
      let compactCount := msgs.length - keepCount
      if compactCount = 0 then (false, s2)
      else
        let compacted := msgs.take compactCount
        let kept := msgs.drop compactCount
        let record := SEntry.compaction timestamp (summarize compacted)
          compacted.length kept.length ("m" ++ toString (compactCount + 1))
        (true, rewrite_session s2 (record :: kept))

/-- The `_message_counts` cache entry, when present, equals the number of
`message` entries in the session file. -/
def CacheCoherent (s : SessionState) : Prop :=
  s.cache = none ∨ s.cache = some (countMessages (fileEntries s.file))

/-- Number of message entries in the session. -/
def nMsgs (s : SessionState) : Nat := (sessionMessages s).length

/-- `ceil(N × keepRatio)` for the session's message count. -/
def ceilKeep (p : EngineParams) (s : SessionState) : Nat :=
  Nat.ceil ((nMsgs s : ℚ) * p.keepFrac)

/-- The head span a firing compaction summarizes away. -/
def compactedOf (p : EngineParams) (s : SessionState) : List SEntry :=
  (sessionMessages s).take (nMsgs s - ceilKeep p s)

/-- The tail span a firing compaction keeps, in original order. -/
def keptMsgs (p : EngineParams) (s : SessionState) : List SEntry :=
  (sessionMessages s).drop (nMsgs s - ceilKeep p s)

/-- The compaction record a firing compaction writes. -/
def compactionRecordOf (p : EngineParams) (f : List SEntry → String)
    (ts : String) (s : SessionState) : SEntry :=
  SEntry.compaction ts (f (compactedOf p s)) (compactedOf p s).length
    (keptMsgs p s).length ("m" ++ toString (nMsgs s - ceilKeep p s + 1))

/-- A one-message session (its file exists, no count cached yet). -/
def oneMsgSession : SessionState :=
  { file := some [SEntry.message "t0" "user" "hi" none], cache := none }

/-- A four-message session (file on disk, count not yet cached). -/
def fourMsgSession : SessionState :=
  { file := some [SEntry.message "t1" "user" "a" none,
      SEntry.message "t2" "assistant" "b" none,
      SEntry.message "t3" "user" "c" none,
      SEntry.message "t4" "assistant" "d" none],
    cache := none }

/-- Engine built from `compact_threshold = 2`, `compact_keep_ratio = 0.5`. -/
def engineHalf : EngineParams := mkEngine 2 (1/2)

/-- The state `maybe_compact engineHalf` leaves behind on `fourMsgSession`:
one compaction record plus the last two messages, count cache 2. -/
def compactedOnceSession : SessionState :=
  { file := some
      [SEntry.compaction "ts" "sum" 2 2 ("m" ++ toString 3),
        SEntry.message "t3" "user" "c" none,
        SEntry.message "t4" "assistant" "d" none],
    cache := some 2 }

/-! ## Message-count cache coherence (C10)

A single writer issuing `append_message`, `rewrite_session` (possibly
failing, in which case it raises and the caller keeps the prior state) and
`message_count` calls against one session, with no external modification of
the file. -/

/-- One `SessionStore` operation on a session. -/
inductive SessionOp where
  | append (timestamp role content : String) (metadata : Option String)
  | rewrite (entries : List SEntry) (writeBudget : Nat) (fsyncOk replaceOk : Bool)
  | count

/-- Apply one operation to the session slice.  A failing rewrite raises;
the store's state at the caller is the unchanged prior state carried by the
error. -/
def applyOp (s : SessionState) : SessionOp → SessionState
  | .append ts r c md => append_message s ts r c md
  | .rewrite es wb fo ro =>
      match rewrite_session_run s es wb fo ro with
      | .ok s' => s'
      | .error s' => s'
  | .count => (message_count s).2

def runOps (s : SessionState) (ops : List SessionOp) : SessionState :=
  ops.foldl applyOp s

/-! ## Procedural memory (`procedures.py`)

Dates (ISO strings) are modelled as integer day numbers with an explicit
`today`; float weights are modelled on `ℝ` (the decay uses a transcendental
power). -/

/-- Characters Python's `str.split()` (no separator) splits on, restricted
to ASCII. -/
def isSpaceChar (c : Char) : Bool :=
  c = ' ' || c = '\t' || c = '\n' || c = '\r' || c = '\x0b' || c = '\x0c'

/-- `[a-z0-9]`, the alphabet of `TOKEN_PATTERN`. -/
def isTokChar (c : Char) : Bool :=
  ('a' ≤ c && c ≤ 'z') || ('0' ≤ c && c ≤ '9')

/-- Maximal runs of characters satisfying `keep` (the common shape of
`str.split()` and `re.findall` of a one-class pattern). -/
def splitRuns (keep : Char → Bool) : List Char → List Char → List (List Char)
  | [], acc => if acc.isEmpty then [] else [acc.reverse]
  | c :: cs, acc =>
      if keep c then splitRuns keep cs (c :: acc)
      else if acc.isEmpty then splitRuns keep cs []
      else acc.reverse :: splitRuns keep cs []

/-- Join words with single spaces (`" ".join`). -/
def joinSp : List (List Char) → List Char
  | [] => []
  | [w] => w
  | w :: ws => w ++ ' ' :: joinSp ws

/-- The whitespace-split words of the lowercased text
(`str.lower()` modelled by `Char.toLower`, exact on ASCII). -/
def lowerWords (s : String) : List (List Char) :=
  splitRuns (fun c => !isSpaceChar c) (s.data.map Char.toLower) []

/-- `_normalize_text`: `" ".join(text.strip().lower().split())` (the strip
is subsumed by the separatorless split). -/
def normalize_text (s : String) : String :=
  ⟨joinSp (lowerWords s)⟩

/-- `_tokenize`: `[a-z0-9]+` runs of the normalized text. -/
def tokenize (s : String) : List String :=
  (splitRuns isTokChar (normalize_text s).data []).map (fun w => ⟨w⟩)

/-- `DECAY_HALF_LIFE_DAYS`. -/
def halfLifeDays : ℝ := 30

/-- `_days_since` on integer day numbers (negative deltas clamp to 0, as in
the source's `max(0.0, delta.days)`). -/
def days_since (today thenDay : ℤ) : ℤ := max 0 (today - thenDay)

/-- `_apply_decay`: `weight * 2^(-days / half_life)` once any time has
elapsed (real-valued model of the float computation). -/
noncomputable def apply_decay (weight : ℝ) (days : ℤ) : ℝ :=
  if days ≤ 0 then weight
  else weight * (2 : ℝ) ^ (-(days : ℝ) / halfLifeDays)

/-- A procedure / candidate-ledger entry.  The stored JSON entries of the
candidate store carry exactly these fields, so the same structure models
both (`CandidateStore._to_procedure` maps them 1:1).  The legacy
`frequency` field only feeds the markdown round-trip, which no claim
touches, and is omitted. -/
structure Procedure where
  title : String
  trigger : String
  steps : List String
  weight : ℝ
  status : String
  firstSeen : ℤ
  lastSeen : ℤ

/-- `Procedure.effective_weight`: decayed weight; permanent procedures
never decay. -/
noncomputable def Procedure.effective_weight (p : Procedure) (today : ℤ) : ℝ :=
  if p.status = "permanent" then p.weight
  else apply_decay p.weight (days_since today p.lastSeen)

/-- Python's `round(x, 2)`.  (Python rounds half-to-even while `round`
rounds half-up; the two agree away from exact multiples of `0.005`, and on
every value arising in the claims, which are integers.) -/
noncomputable def round2 (x : ℝ) : ℝ := (round (x * 100) : ℤ) / 100

/-- Association-list lookup, modelling `dict.get`. -/
def alGet (k : String) : List (String × Procedure) → Option Procedure
  | [] => none
  | (k', v) :: rest => if k' = k then some v else alGet k rest

/-- Association-list store, modelling `dict.__setitem__` (updates in place,
appends new keys, preserving insertion order). -/
def alSet (k : String) (v : Procedure) :
    List (String × Procedure) → List (String × Procedure)
  | [] => [(k, v)]
  | (k', v') :: rest =>
      if k' = k then (k, v) :: rest else (k', v') :: alSet k v rest

/-- One candidate of `CandidateStore.ingest`'s loop: skip candidates with a
falsy trigger or step list; store new keys at weight 1.0/status candidate;
decay-then-increment existing keys, recomputing status from the thresholds,
and report the entry when it newly crosses into permanent. -/
noncomputable def ingest_one (U P : ℝ) (today : ℤ)
    (st : List (String × Procedure)) (c : Procedure) :
    List (String × Procedure) × Option Procedure :=
  if c.trigger = "" ∨ c.steps = [] then (st, none)
  else
    let key := normalize_text c.trigger
    match alGet key st with
    | none =>
        (alSet key
          { title := c.title, trigger := c.trigger, steps := c.steps,
            weight := 1, status := "candidate",
            firstSeen := c.firstSeen, lastSeen := today } st, none)
    | some existing =>
        let oldWeight := existing.weight
        let wasPermanent := existing.status = "permanent"
        let decayed := if wasPermanent then oldWeight
          else apply_decay oldWeight (days_since today existing.lastSeen)
        let newWeight := decayed + 1
        let steps := if existing.steps.length < c.steps.length then c.steps
          else existing.steps
        let newStatus :=
          if wasPermanent then "permanent"
          else if P ≤ newWeight then "permanent"
          else if U ≤ newWeight then "usable"
          else "candidate"
        let entry : Procedure :=
          { title := if c.title = "" then existing.title else c.title,
            trigger := c.trigger, steps := steps, weight := round2 newWeight,
            status := newStatus, firstSeen := existing.firstSeen,
            lastSeen := today }
        (alSet key entry st,
          if newStatus = "permanent" ∧ ¬ wasPermanent then some entry else none)

/-- `CandidateStore.ingest`: fold the candidates through the ledger,
collecting the newly promoted entries in order. -/
noncomputable def ingest (U P : ℝ) (today : ℤ) :
    List (String × Procedure) → List Procedure →
      List (String × Procedure) × List Procedure
  | st, [] => (st, [])
  | st, c :: cs =>
      let r := ingest_one U P today st c
      let rest := ingest U P today r.1 cs
      (rest.1, r.2.toList ++ rest.2)

/-- The ledger after `k` ingest calls, each passing the single candidate
`c`, all on the same day (zero elapsed days). -/
noncomputable def ingestState (U P : ℝ) (today : ℤ) (c : Procedure) :
    Nat → List (String × Procedure)
  | 0 => []
  | k + 1 => (ingest U P today (ingestState U P today c k) [c]).1

/-- The promoted list returned by call `k + 1` of that sequence. -/
noncomputable def ingestPromoted (U P : ℝ) (today : ℤ) (c : Procedure)
    (k : Nat) : List Procedure :=
  (ingest U P today (ingestState U P today c k) [c]).2

/-- The status `ingest` computes for the entry after its `k`-th observation
(thresholds `U` usable, `P` permanent; first observation is always stored
as candidate). -/
noncomputable def statusAt (U P : ℝ) (k : Nat) : String :=
  if k = 1 then "candidate"
  else if P ≤ (k : ℝ) then "permanent"
  else if U ≤ (k : ℝ) then "usable"
  else "candidate"

/-- The ledger entry after the `k`-th same-day observation of `c`. -/
noncomputable def entryAt (U P : ℝ) (today : ℤ) (c : Procedure) (k : Nat) : Procedure :=
  { title := c.title, trigger := c.trigger, steps := c.steps,
    weight := (k : ℝ), status := statusAt U P k,
    firstSeen := c.firstSeen, lastSeen := today }

/-! ## Subagent delegation registry (`subagent_registry.py`)

Timestamps (`time.time()` floats) are modelled as rationals; `uuid4`
identifiers and the current time enter as explicit parameters.  The run
table (`self._runs`, a dict keyed by run id) is an insertion-ordered
association list; every mutating operation persists the whole table, so the
in-memory table and the JSON file coincide and a raised validation error
(before any mutation) leaves both unchanged. -/

/-- `RunStatus`. -/
inductive RunStatus where
  | registered
  | running
  | completed
  | failed
  | timedOut
  deriving DecidableEq, Repr

/-- `SubagentRun`. -/
structure SubagentRun where
  runId : String
  parentAgentId : String
  childAgentId : String
  task : String
  sessionId : String
  parentSessionId : String
  status : RunStatus
  result : Option String
  error : Option String
  createdAt : ℚ
  completedAt : Option ℚ
  timeoutS : ℚ
  deriving DecidableEq, Repr

/-- Python `str.strip()` (ASCII whitespace). -/
def pyStrip (s : String) : String :=
  ⟨((s.data.dropWhile (fun c => isSpaceChar c)).reverse.dropWhile
      (fun c => isSpaceChar c)).reverse⟩

/-- `SubagentRegistry.register_run`: validate all fields, then build,
store and persist the run.  All validations precede the mutation, so an
error leaves the table (and its persisted file) untouched — the model
returns `.error` without a new table. -/
def register_run (st : List (String × SubagentRun))
    (parentAgentId childAgentId task parentSessionId : String)
    (timeoutS : ℚ) (freshRunId freshSessionSuffix : String) (now : ℚ) :
    Except String (List (String × SubagentRun) × SubagentRun) :=
  let normalizedParent := pyStrip parentAgentId
  let normalizedChild := pyStrip childAgentId
  let normalizedTask := pyStrip task
  let normalizedParentSessionId := pyStrip parentSessionId
  if normalizedParent = "" then .error "parent_agent_id is required"
  else if normalizedChild = "" then .error "child_agent_id is required"
  else if normalizedTask = "" then .error "task is required"
  else if normalizedParentSessionId = "" then .error "parent_session_id is required"
  else if timeoutS ≤ 0 then .error "timeout_s must be greater than 0"
  else if normalizedParent = normalizedChild then
    .error "Circular delegation is not allowed"
  else
    let run : SubagentRun :=
      { runId := freshRunId, parentAgentId := normalizedParent,
        childAgentId := normalizedChild, task := normalizedTask,
        sessionId := "delegation-" ++ freshSessionSuffix,
        parentSessionId := normalizedParentSessionId,
        status := .registered, result := none, error := none,
        createdAt := now, completedAt := none, timeoutS := timeoutS }
    .ok (st ++ [(freshRunId, run)], run)

/-- The loop guards of `check_timeouts`: only `RUNNING` runs whose age
strictly exceeds their own timeout expire. -/
def isExpired (now : ℚ) (r : SubagentRun) : Bool :=
  if r.status = RunStatus.running then
    if now - r.createdAt ≤ r.timeoutS then false else true
  else false

/-- The generated error text (`f"Timed out after {timeout_s:.1f}s"`; the
exact float formatting is not modelled). -/
def timeoutMessage (t : ℚ) : String :=
  "Timed out after " ++ toString t ++ "s"

/-- The in-place mutation applied to an expired run. -/
def expireRun (now : ℚ) (r : SubagentRun) : SubagentRun :=
  { r with
      status := RunStatus.timedOut,
      error := some (timeoutMessage r.timeoutS),
      completedAt := some now }

/-- `SubagentRegistry.check_timeouts`: scan the table in order, transition
every expired `RUNNING` run, return the newly-timed-out runs and the new
table (persisted when non-empty — persistence is the identity on the
model's table). -/
def check_timeouts (now : ℚ) :
    List (String × SubagentRun) → List SubagentRun × List (String × SubagentRun)
  | [] => ([], [])
  | (k, r) :: rest =>
      let tail := check_timeouts now rest
      if isExpired now r then
        (expireRun now r :: tail.1, (k, expireRun now r) :: tail.2)
      else (tail.1, (k, r) :: tail.2)

/-- A concrete `RUNNING` run created at time 0 with a 10-second timeout. -/
def run0 : SubagentRun :=
  { runId := "r1", parentAgentId := "a", childAgentId := "b", task := "t",
    sessionId := "s", parentSessionId := "ps", status := RunStatus.running,
    result := none, error := none, createdAt := 0, completedAt := none,
    timeoutS := 10 }

/-! ## Procedure matching (`ProcedureStore.match_query`, C8) -/

/-- Python's `needle in hay` on strings (contiguous substring). -/
def charsContain (needle : List Char) : List Char → Bool
  | [] => needle.isEmpty
  | c :: rest => needle.isPrefixOf (c :: rest) || charsContain needle rest

/-- `needle in hay`. -/
def strIn (needle hay : String) : Bool := charsContain needle.data hay.data

/-- `set(_tokenize(text))`. -/
def tokenSet (s : String) : Finset String := (tokenize s).toFinset

/-- The token-Jaccard overlap (`len(q & t) / len(q | t)` when both token
sets are non-empty, else the initial 0.0). -/
def overlapScore (q t : String) : ℚ :=
  if (tokenSet q).Nonempty ∧ (tokenSet t).Nonempty then
    ((tokenSet q ∩ tokenSet t).card : ℚ) / ((tokenSet q ∪ tokenSet t).card : ℚ)
  else 0

/-- The score `match_query` assigns to a procedure with non-empty
normalized trigger.  `sim` is `SequenceMatcher(a=query, b=trigger).ratio()`,
kept abstract: the claim constrains only how the score combines it. -/
def scoreOf (sim : String → String → ℚ) (query : String) (p : Procedure) : ℚ :=
  let nq := normalize_text query
  let t := normalize_text p.trigger
  if strIn t nq then 1
  else if ¬ nq = "" ∧ strIn nq t then 9/10
  else max (overlapScore nq t) (sim nq t * (8/10))

/-- Descending-by-score order used to model Python's stable
`sort(key=score, reverse=True)`. -/
def scoreGE (a b : ℚ × Procedure) : Prop := b.1 ≤ a.1

instance : DecidableRel scoreGE :=
  fun a b => inferInstanceAs (Decidable (b.1 ≤ a.1))

/-- The scored survivor list, in discovery order: procedures with a
non-empty normalized trigger scoring at least 0.45. -/
def scoredOf (sim : String → String → ℚ) (procedures : List Procedure)
    (query : String) : List (ℚ × Procedure) :=
  procedures.filterMap (fun p =>
    if normalize_text p.trigger = "" then none
    else if 9/20 ≤ scoreOf sim query p then some (scoreOf sim query p, p)
    else none)

/-- `ProcedureStore.match_query`: score, drop below 0.45, stable-sort by
score descending, cap at `max(1, limit)`. -/
def match_query (sim : String → String → ℚ) (procedures : List Procedure)
    (query : String) (limit : ℤ) : List Procedure :=
  ((List.insertionSort scoreGE (scoredOf sim procedures query)).map
      Prod.snd).take (max 1 limit).toNat

/-! ## Per-agent assignment serialization (`RegisteredAgent.assign`, C9)

`assign` increments `_pending_assignments`, acquires the per-agent
`asyncio.Lock` via `async with`, awaits the backend call
(`self.agent.assign(task)`) while holding the lock, then releases the lock
and decrements the counter.  The event loop interleaves coroutines only at
await points; each transition below is one such quantum.  The backend call
of task `i` is in flight exactly while `pc i = inCall`. -/

inductive AssignPc where
  | idle
  | ready
  | inCall
  | finished
  deriving DecidableEq, Repr

/-- Event-loop state for one agent runtime handle and a family of `assign`
coroutines indexed by `ι`. -/
structure AssignSystem (ι : Type) where
  holder : Option ι
  pc : ι → AssignPc
  pending : ℤ

/-- One scheduling quantum of some `assign` coroutine. -/
inductive AssignStep {ι : Type} [DecidableEq ι] :
    AssignSystem ι → AssignSystem ι → Prop where
  | start (s : AssignSystem ι) (i : ι) (h : s.pc i = .idle) :
      AssignStep s
        { holder := s.holder,
          pc := fun j => if j = i then .ready else s.pc j,
          pending := s.pending + 1 }
  | acquire (s : AssignSystem ι) (i : ι) (h : s.pc i = .ready)
      (hfree : s.holder = none) :
      AssignStep s
        { holder := some i,
          pc := fun j => if j = i then .inCall else s.pc j,
          pending := s.pending }
  | finish (s : AssignSystem ι) (i : ι) (h : s.pc i = .inCall) :
      AssignStep s
        { holder := none,
          pc := fun j => if j = i then .finished else s.pc j,
          pending := s.pending - 1 }

/-- No coroutine has run yet. -/
def assignInit (ι : Type) : AssignSystem ι :=
  { holder := none, pc := fun _ => .idle, pending := 0 }

/-- States the event loop can reach. -/
def AssignReachable {ι : Type} [DecidableEq ι] (s : AssignSystem ι) : Prop :=
  Relation.ReflTransGen AssignStep (assignInit ι) s

instance : IsTotal (ℚ × Procedure) scoreGE := ⟨fun a b => le_total b.1 a.1⟩

instance : IsTrans (ℚ × Procedure) scoreGE := ⟨fun _ _ _ h1 h2 => le_trans h2 h1⟩

/-- A stored procedure whose trigger is a substring of the example query. -/
def pDeploy : Procedure :=
  { title := "Deploy App", trigger := "deploy app", steps := ["step"],
    weight := 1, status := "usable", firstSeen := 0, lastSeen := 0 }

/-! ## Theorems -/

/-- A complete write loop reproduces the entries and their message count. -/
theorem rwLoop_complete (entries : List SEntry) :
    ∀ temp count budget, entries.length ≤ budget →
      rwLoop temp entries count budget =
        some (temp ++ entries, count + countMessages entries) := by
  induction entries with
  | nil => intro temp count budget _; simp [rwLoop, countMessages]
  | cons e rest ih =>
      intro temp count budget hb
      match budget with
      | 0 => simp at hb
      | b + 1 =>
          have hb' : rest.length ≤ b := by
            simpa [List.length_cons, Nat.succ_le_succ_iff] using hb
          rw [rwLoop, ih (temp ++ [e]) (count + if e.isMessage then 1 else 0) b hb']
          cases hm : e.isMessage <;>
            simp [countMessages, List.filter_cons, hm, List.append_assoc] <;> omega

/-- An exhausted budget fails the write loop. -/
theorem rwLoop_incomplete (entries : List SEntry) :
    ∀ temp count budget, budget < entries.length →
      rwLoop temp entries count budget = none := by
  induction entries with
  | nil => intro _ _ _ h; simp at h
  | cons e rest ih =>
      intro temp count budget hb
      match budget with
      | 0 => rfl
      | b + 1 =>
          have hb' : b < rest.length := by
            simpa [List.length_cons, Nat.succ_lt_succ_iff] using hb
          rw [rwLoop, ih _ _ b hb']

/-- Characterization of a `rewrite_session` run under fault injection. -/
theorem rewrite_session_run_eq (s : SessionState) (entries : List SEntry)
    (writeBudget : Nat) (fsyncOk replaceOk : Bool) :
    rewrite_session_run s entries writeBudget fsyncOk replaceOk =
      if entries.length ≤ writeBudget ∧ fsyncOk = true ∧ replaceOk = true then
        .ok { file := some entries, cache := some (countMessages entries) }
      else .error s := by
  by_cases hw : entries.length ≤ writeBudget
  · rw [rewrite_session_run, rwLoop_complete entries [] 0 writeBudget hw]
    cases fsyncOk <;> cases replaceOk <;> simp [hw]
  · have hlt : writeBudget < entries.length := Nat.lt_of_not_le hw
    rw [rewrite_session_run, rwLoop_incomplete entries [] 0 writeBudget hlt]
    simp [hw]

/-- C1: `rewrite_session` is atomic.  A fully successful run (every temp
write succeeds, fsync succeeds, the final rename succeeds) replaces the
session file's contents with exactly the given entries and refreshes the
cached message count; a run that fails at any point — while writing the temp
file, at fsync, or at the final rename after the temp file was fully
written — raises to the caller and leaves the prior session state
byte-identical (in particular never with fewer entries than before and never
with a partially-written trailing line). -/
theorem rewrite_session_atomic (s : SessionState) (entries : List SEntry)
    (writeBudget : Nat) (fsyncOk replaceOk : Bool) :
    rewrite_session_run s entries writeBudget fsyncOk replaceOk =
      if entries.length ≤ writeBudget ∧ fsyncOk = true ∧ replaceOk = true then
        .ok { file := some entries, cache := some (countMessages entries) }
      else .error s :=
  rewrite_session_run_eq s entries writeBudget fsyncOk replaceOk

theorem mkEngine_valid (t : ℤ) (r : ℚ) : (mkEngine t r).Valid := by
  refine ⟨?_, ?_, ?_⟩
  · simp [mkEngine]
  · simp only [mkEngine, le_min_iff, le_max_iff]
    constructor
    · norm_num
    · left; norm_num
  · simp [mkEngine]

theorem countMessages_eq_sessionMessages_length (s : SessionState) :
    countMessages (fileEntries s.file) = (sessionMessages s).length := rfl

theorem keepFrac_pos (p : EngineParams) (hp : p.Valid) : 0 < p.keepFrac :=
  lt_of_lt_of_le (by norm_num) hp.2.1

/-- With a valid (clamped) engine and at least one message,
`max(1, ceil(N × r))` is just `ceil(N × r)`. -/
theorem keepOf_eq_ceil (p : EngineParams) (hp : p.Valid) (n : Nat) (hn : 1 ≤ n) :
    keepOf p n = Nat.ceil ((n : ℚ) * p.keepFrac) := by
  have hpos : 0 < (n : ℚ) * p.keepFrac :=
    mul_pos (by exact_mod_cast hn) (keepFrac_pos p hp)
  have : 1 ≤ Nat.ceil ((n : ℚ) * p.keepFrac) := Nat.one_le_iff_ne_zero.mpr
    (Nat.pos_iff_ne_zero.mp (Nat.ceil_pos.mpr hpos))
  exact Nat.max_eq_right this

theorem filter_keptMsgs (p : EngineParams) (s : SessionState) :
    (keptMsgs p s).filter SEntry.isMessage = keptMsgs p s := by
  apply List.filter_eq_self.mpr
  intro a ha
  have : a ∈ (read_session s).filter SEntry.isMessage :=
    List.mem_of_mem_drop ha
  exact List.of_mem_filter this

/-- Full evaluation of `maybe_compact` on a cache-coherent session: the
firing branch (enough messages and a non-trivial split) rewrites the file to
the compaction record followed by the kept tail, and the below-threshold
branch is a no-op on the file that only warms the count cache. -/
theorem maybe_compact_eval (p : EngineParams) (f : List SEntry → String)
    (ts : String) (s : SessionState) (hp : p.Valid) (hcoh : CacheCoherent s) :
    (p.threshold ≤ nMsgs s → ceilKeep p s < nMsgs s →
      maybe_compact p f ts s =
        (true,
          { file := some (compactionRecordOf p f ts s :: keptMsgs p s),
            cache := some (ceilKeep p s) }) ∧
      (compactedOf p s).length = nMsgs s - ceilKeep p s ∧
      (keptMsgs p s).length = ceilKeep p s) ∧
    (nMsgs s < p.threshold →
      maybe_compact p f ts s =
        (false, { file := s.file, cache := some (nMsgs s) })) := by
  -- `message_count` returns the true message count on a coherent state.
  have hmc : message_count s = (nMsgs s, { file := s.file, cache := some (nMsgs s) }) := by
    rcases hcoh with h | h
    · simp [message_count, h]; rfl
    · obtain ⟨fl, ca⟩ := s
      have hc : ca = some (countMessages (fileEntries fl)) := h
      subst hc
      rfl
  have hrm : read_messages_all { file := s.file, cache := some (nMsgs s) } =
      (sessionMessages s, { file := s.file, cache := some (nMsgs s) }) := by
    simp [read_messages_all, read_session, sessionMessages]; rfl
  constructor
  · intro hn hk
    have h1 : 1 ≤ nMsgs s := le_trans hp.1 hn
    have hkeep : keepOf p (sessionMessages s).length = ceilKeep p s :=
      keepOf_eq_ceil p hp _ h1
    have hnotlt : ¬ nMsgs s < p.threshold := by omega
    have hcc : ¬ (sessionMessages s).length - ceilKeep p s = 0 := by
      show ¬ nMsgs s - ceilKeep p s = 0; omega
    have hlen : (keptMsgs p s).length = ceilKeep p s := by
      simp only [keptMsgs, List.length_drop]
      show nMsgs s - (nMsgs s - ceilKeep p s) = ceilKeep p s
      omega
    have hnotlt' : ¬ (sessionMessages s).length < p.threshold := hnotlt
    refine ⟨?_, ?_, hlen⟩
    · rw [maybe_compact.eq_def, hmc]
      simp only
      rw [if_neg hnotlt, hrm]
      simp only
      rw [if_neg hnotlt', hkeep, if_neg hcc]
      refine congrArg (Prod.mk true) ?_
      simp only [rewrite_session]
      have hfield : ((keptMsgs p s).filter SEntry.isMessage).length = ceilKeep p s := by
        rw [filter_keptMsgs p s, hlen]
      exact congrArg₂ SessionState.mk rfl (congrArg some hfield)
    · simp only [compactedOf, List.length_take, nMsgs]
      omega
  · intro hn
    have hlt : nMsgs s < p.threshold := hn
    rw [maybe_compact.eq_def, hmc]
    simp only
    rw [if_pos hlt]

/-- C2 (amended): on a cache-coherent session holding `N` message entries
with `N ≥ threshold` *and* `ceil(N × keepRatio) < N`, `maybe_compact`
returns true and rewrites the session to exactly one compaction record —
whose `compacted_messages` count is `N - ceil(N × keepRatio)` and whose
`kept_messages` count is `ceil(N × keepRatio)` — followed by the last
`ceil(N × keepRatio)` messages in their original order; when `N` is below
the threshold it returns false and leaves the session file unchanged.
(The unamended claim fails when `ceil(N × keepRatio) = N`, see the
counterexample.) -/
theorem maybe_compact_compacts (p : EngineParams) (f : List SEntry → String)
    (ts : String) (s : SessionState) (hp : p.Valid) (hcoh : CacheCoherent s) :
    (p.threshold ≤ nMsgs s → ceilKeep p s < nMsgs s →
      maybe_compact p f ts s =
        (true,
          { file := some (compactionRecordOf p f ts s :: keptMsgs p s),
            cache := some (ceilKeep p s) }) ∧
      (compactedOf p s).length = nMsgs s - ceilKeep p s ∧
      (keptMsgs p s).length = ceilKeep p s) ∧
    (nMsgs s < p.threshold →
      (maybe_compact p f ts s).1 = false ∧
      (maybe_compact p f ts s).2.file = s.file) := by
  obtain ⟨hA, hB⟩ := maybe_compact_eval p f ts s hp hcoh
  exact ⟨hA, fun hn => by rw [hB hn]; exact ⟨rfl, rfl⟩⟩

/-- C2 counterexample: with an engine built from `compact_threshold = 1`,
`compact_keep_ratio = 0.9` and a session holding `N = 1 ≥ threshold`
message entries, `maybe_compact` returns false (because
`keep_count = ceil(1 × 0.9) = 1 = N` makes `compact_count = 0`), refuting
the claim that it returns true for every `N ≥ threshold`. -/
theorem maybe_compact_no_fire_at_threshold :
    (mkEngine 1 (9/10)).threshold ≤ nMsgs oneMsgSession ∧
    ¬ (maybe_compact (mkEngine 1 (9/10)) (fun _ => "sum") "ts" oneMsgSession).1 = true := by
  have hthr : (mkEngine 1 (9/10)).threshold = 1 := rfl
  have hfrac : (mkEngine 1 (9/10)).keepFrac = 9/10 := by
    simp only [mkEngine]
    norm_num
  have hceil : Nat.ceil (((1 : ℕ) : ℚ) * (mkEngine 1 (9/10)).keepFrac) = 1 := by
    rw [hfrac, show ((1 : ℕ) : ℚ) * (9/10) = 9/10 by norm_num,
      Nat.ceil_eq_iff (by norm_num)]
    norm_num
  have hn1 : nMsgs oneMsgSession = 1 := rfl
  refine ⟨by rw [hthr, hn1], ?_⟩
  rw [maybe_compact.eq_def]
  have hmc : message_count oneMsgSession =
      (1, { file := oneMsgSession.file, cache := some 1 }) := rfl
  rw [hmc]
  simp only
  rw [if_neg (by rw [hthr]; omega)]
  have hrm : read_messages_all { file := oneMsgSession.file, cache := some 1 } =
      ([SEntry.message "t0" "user" "hi" none],
        { file := oneMsgSession.file, cache := some 1 }) := rfl
  rw [hrm]
  simp only [List.length_cons, List.length_nil]
  rw [if_neg (by rw [hthr]; omega)]
  have hkeep : keepOf (mkEngine 1 (9/10)) 1 = 1 := by
    rw [keepOf, hceil]
    exact max_self 1
  rw [hkeep]
  simp

theorem fourMsgSession_n : nMsgs fourMsgSession = 4 := rfl

theorem ceilKeep_fourMsg : ceilKeep (mkEngine 4 (1/4)) fourMsgSession = 1 := by
  rw [ceilKeep, fourMsgSession_n,
    show ((4 : ℕ) : ℚ) * (mkEngine 4 (1/4)).keepFrac = 1 by
      simp only [mkEngine]
      norm_num]
  exact Nat.ceil_one

/-- C2 witness: the amended theorem applied to `threshold = 4`,
`keepRatio = 0.25` and a four-message session. -/
theorem maybe_compact_compacts_witness :
    (mkEngine 4 (1/4)).Valid ∧ CacheCoherent fourMsgSession ∧
    (mkEngine 4 (1/4)).threshold ≤ nMsgs fourMsgSession ∧
    ceilKeep (mkEngine 4 (1/4)) fourMsgSession < nMsgs fourMsgSession ∧
    (maybe_compact (mkEngine 4 (1/4)) (fun _ => "sum") "ts" fourMsgSession =
      (true,
        { file := some
            (compactionRecordOf (mkEngine 4 (1/4)) (fun _ => "sum") "ts" fourMsgSession ::
              keptMsgs (mkEngine 4 (1/4)) fourMsgSession),
          cache := some (ceilKeep (mkEngine 4 (1/4)) fourMsgSession) }) ∧
      (compactedOf (mkEngine 4 (1/4)) fourMsgSession).length =
        nMsgs fourMsgSession - ceilKeep (mkEngine 4 (1/4)) fourMsgSession ∧
      (keptMsgs (mkEngine 4 (1/4)) fourMsgSession).length =
        ceilKeep (mkEngine 4 (1/4)) fourMsgSession) := by
  have hval := mkEngine_valid 4 (1/4)
  have hcoh : CacheCoherent fourMsgSession := Or.inl rfl
  have h3 : (mkEngine 4 (1/4)).threshold ≤ nMsgs fourMsgSession := by
    rw [fourMsgSession_n]
    show (max 1 (4:ℤ)).toNat ≤ 4
    norm_num
  have h4 : ceilKeep (mkEngine 4 (1/4)) fourMsgSession < nMsgs fourMsgSession := by
    rw [ceilKeep_fourMsg, fourMsgSession_n]
    omega
  exact ⟨hval, hcoh, h3, h4,
    (maybe_compact_compacts (mkEngine 4 (1/4)) (fun _ => "sum") "ts" fourMsgSession
      hval hcoh).1 h3 h4⟩

/-- Every exit path of `maybe_compact` leaves the count cache exact
(assuming it was coherent going in): the cached value is the number of
message entries in the resulting file. -/
theorem maybe_compact_cache_exact (p : EngineParams) (f : List SEntry → String)
    (ts : String) (s : SessionState) (hcoh : CacheCoherent s) :
    (maybe_compact p f ts s).2.cache =
      some (countMessages (fileEntries (maybe_compact p f ts s).2.file)) := by
  have hmc : message_count s = (nMsgs s, { file := s.file, cache := some (nMsgs s) }) := by
    rcases hcoh with h | h
    · simp [message_count, h]; rfl
    · obtain ⟨fl, ca⟩ := s
      have hc : ca = some (countMessages (fileEntries fl)) := h
      subst hc
      rfl
  rw [maybe_compact.eq_def, hmc]
  simp only
  by_cases h1 : nMsgs s < p.threshold
  · rw [if_pos h1]
    rfl
  · rw [if_neg h1]
    have hrm : read_messages_all { file := s.file, cache := some (nMsgs s) } =
        (sessionMessages s, { file := s.file, cache := some (nMsgs s) }) := by
      simp [read_messages_all, read_session, sessionMessages]; rfl
    rw [hrm]
    simp only
    by_cases h2 : (sessionMessages s).length < p.threshold
    · rw [if_pos h2]
      rfl
    · rw [if_neg h2]
      by_cases h3 : (sessionMessages s).length - keepOf p (sessionMessages s).length = 0
      · rw [if_pos h3]
        rfl
      · rw [if_neg h3]
        rfl

theorem engineHalf_threshold : engineHalf.threshold = 2 := rfl

theorem engineHalf_keepFrac : engineHalf.keepFrac = 1/2 := by
  simp only [engineHalf, mkEngine]
  norm_num

theorem ceilKeep_engineHalf_four : ceilKeep engineHalf fourMsgSession = 2 := by
  rw [ceilKeep, fourMsgSession_n,
    show ((4 : ℕ) : ℚ) * engineHalf.keepFrac = 2 by rw [engineHalf_keepFrac]; norm_num]
  exact Nat.ceil_intCast 2

theorem maybe_compact_engineHalf_four :
    maybe_compact engineHalf (fun _ => "sum") "ts" fourMsgSession =
      (true, compactedOnceSession) := by
  have hthr : engineHalf.threshold ≤ nMsgs fourMsgSession := by
    rw [engineHalf_threshold, fourMsgSession_n]
    omega
  have hck : ceilKeep engineHalf fourMsgSession < nMsgs fourMsgSession := by
    rw [ceilKeep_engineHalf_four, fourMsgSession_n]
    omega
  obtain ⟨heq, -, -⟩ := (maybe_compact_eval engineHalf (fun _ => "sum") "ts"
    fourMsgSession (mkEngine_valid 2 (1/2)) (Or.inl rfl)).1 hthr hck
  rw [heq]
  refine congrArg (Prod.mk true) ?_
  simp only [compactionRecordOf, keptMsgs, compactedOf, ceilKeep_engineHalf_four,
    fourMsgSession_n]
  rfl

/-- C3 counterexample: with `threshold = 2`, `keepRatio = 0.5` and a
four-message session, the first `maybe_compact` call compacts (keeping two
messages) and the immediately following call — with no appends in
between — compacts *again* (the kept count still meets the threshold),
refuting the claim that the second call always returns false. -/
theorem maybe_compact_not_idempotent :
    (maybe_compact engineHalf (fun _ => "sum") "ts" fourMsgSession).1 = true ∧
    ¬ (maybe_compact engineHalf (fun _ => "sum") "ts"
        (maybe_compact engineHalf (fun _ => "sum") "ts" fourMsgSession).2).1 = false := by
  have h1 := maybe_compact_engineHalf_four
  have hn2 : nMsgs compactedOnceSession = 2 := rfl
  have hthr2 : engineHalf.threshold ≤ nMsgs compactedOnceSession := by
    rw [engineHalf_threshold, hn2]
  have hck2 : ceilKeep engineHalf compactedOnceSession < nMsgs compactedOnceSession := by
    rw [ceilKeep, hn2,
      show ((2 : ℕ) : ℚ) * engineHalf.keepFrac = 1 by rw [engineHalf_keepFrac]; norm_num,
      Nat.ceil_one]
    omega
  obtain ⟨heq2, -, -⟩ := (maybe_compact_eval engineHalf (fun _ => "sum") "ts"
    compactedOnceSession (mkEngine_valid 2 (1/2)) (Or.inr rfl)).1 hthr2 hck2
  refine ⟨by rw [h1], ?_⟩
  rw [h1]
  simp only [heq2]
  simp

/-- C3 (amended): calling `maybe_compact` twice in a row with no messages
appended in between is a no-op the second time *provided* the first call
left the session's message count below the compaction threshold: the second
call then returns false and leaves the session state (file and cache)
unchanged.  (The unamended claim fails when the kept message count still
reaches the threshold, see the counterexample.) -/
theorem maybe_compact_second_call_noop (p : EngineParams) (f : List SEntry → String)
    (ts : String) (s : SessionState) (hp : p.Valid) (hcoh : CacheCoherent s)
    (hlt : nMsgs (maybe_compact p f ts s).2 < p.threshold) :
    maybe_compact p f ts (maybe_compact p f ts s).2 =
      (false, (maybe_compact p f ts s).2) := by
  have hex := maybe_compact_cache_exact p f ts s hcoh
  have hcoh1 : CacheCoherent (maybe_compact p f ts s).2 := Or.inr hex
  have hB := (maybe_compact_eval p f ts (maybe_compact p f ts s).2 hp hcoh1).2 hlt
  rw [hB]
  refine congrArg (Prod.mk false) ?_
  have : some (nMsgs (maybe_compact p f ts s).2) = (maybe_compact p f ts s).2.cache :=
    hex.symm
  rw [this]

/-- C3 witness: `threshold = 4`, `keepRatio = 0.25`, four messages — the
first call keeps one message, so the second call is a no-op. -/
theorem maybe_compact_second_call_noop_witness :
    (mkEngine 4 (1/4)).Valid ∧ CacheCoherent fourMsgSession ∧
    nMsgs (maybe_compact (mkEngine 4 (1/4)) (fun _ => "sum") "ts" fourMsgSession).2 <
      (mkEngine 4 (1/4)).threshold ∧
    maybe_compact (mkEngine 4 (1/4)) (fun _ => "sum") "ts"
        (maybe_compact (mkEngine 4 (1/4)) (fun _ => "sum") "ts" fourMsgSession).2 =
      (false, (maybe_compact (mkEngine 4 (1/4)) (fun _ => "sum") "ts" fourMsgSession).2) := by
  have hval := mkEngine_valid 4 (1/4)
  have hcoh : CacheCoherent fourMsgSession := Or.inl rfl
  have h3 : (mkEngine 4 (1/4)).threshold ≤ nMsgs fourMsgSession := by
    rw [fourMsgSession_n]
    show (max 1 (4:ℤ)).toNat ≤ 4
    norm_num
  have h4 : ceilKeep (mkEngine 4 (1/4)) fourMsgSession < nMsgs fourMsgSession := by
    rw [ceilKeep_fourMsg, fourMsgSession_n]
    omega
  obtain ⟨heq, -, hklen⟩ :=
    (maybe_compact_eval (mkEngine 4 (1/4)) (fun _ => "sum") "ts" fourMsgSession
      hval hcoh).1 h3 h4
  have hlt : nMsgs (maybe_compact (mkEngine 4 (1/4)) (fun _ => "sum") "ts"
      fourMsgSession).2 < (mkEngine 4 (1/4)).threshold := by
    rw [heq]
    show countMessages (compactionRecordOf (mkEngine 4 (1/4)) (fun _ => "sum") "ts"
      fourMsgSession :: keptMsgs (mkEngine 4 (1/4)) fourMsgSession) < _
    rw [countMessages, List.filter_cons_of_neg (by exact fun h => nomatch h),
      filter_keptMsgs, hklen, ceilKeep_fourMsg]
    show 1 < (max 1 (4:ℤ)).toNat
    norm_num
  exact ⟨hval, hcoh, hlt,
    maybe_compact_second_call_noop (mkEngine 4 (1/4)) (fun _ => "sum") "ts"
      fourMsgSession hval hcoh hlt⟩

theorem countMessages_append (es : List SEntry) (e : SEntry) :
    countMessages (es ++ [e]) =
      countMessages es + if e.isMessage then 1 else 0 := by
  cases hm : e.isMessage <;>
    simp [countMessages, List.filter_append, hm]

/-- Each operation preserves cache coherence. -/
theorem applyOp_coherent (s : SessionState) (op : SessionOp)
    (hcoh : CacheCoherent s) : CacheCoherent (applyOp s op) := by
  cases op with
  | append ts r c md =>
      right
      rcases hcoh with h | h
      · -- no cached count: recount (file existed) or start at 1 (fresh file)
        cases hf : s.file with
        | none =>
            simp [applyOp, append_message, h, hf, fileEntries, countMessages,
              SEntry.isMessage]
        | some es =>
            simp [applyOp, append_message, h, hf, fileEntries]
      · -- cached count: increment
        cases hf : s.file with
        | none =>
            -- coherent cache on a missing file means cached 0 messages
            simp only [hf, fileEntries] at h
            simp [applyOp, append_message, h, hf, fileEntries, countMessages,
              SEntry.isMessage]
        | some es =>
            simp [applyOp, append_message, h, hf, fileEntries,
              countMessages_append, SEntry.isMessage]
  | rewrite es wb fo ro =>
      rw [applyOp, rewrite_session_run_eq]
      by_cases hok : es.length ≤ wb ∧ fo = true ∧ ro = true
      · rw [if_pos hok]
        exact Or.inr rfl
      · rw [if_neg hok]
        exact hcoh
  | count =>
      rcases hcoh with h | h
      · exact Or.inr (by simp [applyOp, message_count, h])
      · right
        rw [applyOp, message_count.eq_def, h]
        exact h

/-- On a coherent state, `message_count` returns the true number of message
entries in the file. -/
theorem message_count_correct (s : SessionState) (hcoh : CacheCoherent s) :
    (message_count s).1 = countMessages (fileEntries s.file) := by
  rcases hcoh with h | h <;> simp [message_count, h]

theorem runOps_coherent (ops : List SessionOp) :
    ∀ s : SessionState, CacheCoherent s → CacheCoherent (runOps s ops) := by
  induction ops with
  | nil => intro s h; exact h
  | cons op rest ih =>
      intro s h
      exact ih (applyOp s op) (applyOp_coherent s op h)

/-- C10: starting from any cache-coherent session state (in particular a
fresh session), after any single-writer sequence of `append_message`,
`rewrite_session` and `message_count` operations the count cache stays
coherent and `message_count` returns exactly the number of entries of type
`message` stored in the session file — the invariant the compaction
threshold check relies on. -/
theorem message_count_cache_coherence (s : SessionState) (hcoh : CacheCoherent s)
    (ops : List SessionOp) :
    CacheCoherent (runOps s ops) ∧
    (message_count (runOps s ops)).1 =
      countMessages (fileEntries (runOps s ops).file) := by
  have h := runOps_coherent ops s hcoh
  exact ⟨h, message_count_correct _ h⟩

/-- C10 witness: a fresh session, two appends, a failed rewrite, a
successful rewrite and a count query. -/
theorem message_count_cache_coherence_witness :
    CacheCoherent { file := none, cache := none } ∧
    (CacheCoherent (runOps { file := none, cache := none }
        [.append "t1" "user" "a" none,
         .append "t2" "assistant" "b" none,
         .rewrite [SEntry.message "t3" "user" "c" none] 0 true false,
         .rewrite [SEntry.message "t3" "user" "c" none] 5 true true,
         .count]) ∧
      (message_count (runOps { file := none, cache := none }
          [.append "t1" "user" "a" none,
           .append "t2" "assistant" "b" none,
           .rewrite [SEntry.message "t3" "user" "c" none] 0 true false,
           .rewrite [SEntry.message "t3" "user" "c" none] 5 true true,
           .count])).1 =
        countMessages (fileEntries (runOps { file := none, cache := none }
            [.append "t1" "user" "a" none,
             .append "t2" "assistant" "b" none,
             .rewrite [SEntry.message "t3" "user" "c" none] 0 true false,
             .rewrite [SEntry.message "t3" "user" "c" none] 5 true true,
             .count]).file)) :=
  ⟨Or.inl rfl,
    message_count_cache_coherence { file := none, cache := none } (Or.inl rfl)
      [.append "t1" "user" "a" none,
       .append "t2" "assistant" "b" none,
       .rewrite [SEntry.message "t3" "user" "c" none] 0 true false,
       .rewrite [SEntry.message "t3" "user" "c" none] 5 true true,
       .count]⟩

theorem days_since_self (today : ℤ) : days_since today today = 0 := by
  simp [days_since]

theorem apply_decay_same_day (w : ℝ) (today : ℤ) :
    apply_decay w (days_since today today) = w := by
  rw [days_since_self, apply_decay, if_pos le_rfl]

theorem round2_natCast (n : ℕ) : round2 ((n : ℝ)) = n := by
  rw [round2, show ((n : ℝ) * 100) = (((n * 100 : ℕ) : ℤ) : ℝ) by push_cast; ring,
    round_intCast]
  push_cast
  field_simp

theorem statusAt_perm_iff (U P : ℝ) (k : Nat) (hP : (1:ℝ) < P) (hk : 1 ≤ k) :
    (statusAt U P k = "permanent") ↔ P ≤ (k : ℝ) := by
  rw [statusAt]
  by_cases h1 : k = 1
  · subst h1
    rw [if_pos rfl]
    simp only [Nat.cast_one]
    constructor
    · intro h; exact absurd h (by decide)
    · intro h; exact absurd (lt_of_lt_of_le hP h) (lt_irrefl _)
  · rw [if_neg h1]
    by_cases h2 : P ≤ (k : ℝ)
    · rw [if_pos h2]; simp [h2]
    · rw [if_neg h2]
      constructor
      · intro h
        by_cases h3 : U ≤ (k : ℝ)
        · rw [if_pos h3] at h; exact absurd h (by decide)
        · rw [if_neg h3] at h; exact absurd h (by decide)
      · intro h; exact absurd h h2

/-- Shape of the ledger after `k + 1` same-day ingestions of a fixed
candidate, together with the promoted list returned by call `k + 1`. -/
theorem ingestState_spec (U P : ℝ) (today : ℤ) (c : Procedure)
    (hP : (1:ℝ) < P) (htr : ¬ c.trigger = "") (hst : ¬ c.steps = []) :
    ∀ k : ℕ,
      ingestState U P today c (k+1) =
        [(normalize_text c.trigger, entryAt U P today c (k+1))] ∧
      ingestPromoted U P today c k =
        (if P ≤ ((k+1 : ℕ) : ℝ) ∧ ¬ P ≤ ((k : ℕ) : ℝ)
         then [entryAt U P today c (k+1)] else []) := by
  have hguard : ¬ (c.trigger = "" ∨ c.steps = []) := by
    intro h; rcases h with h | h
    · exact htr h
    · exact hst h
  intro k
  induction k with
  | zero =>
      have hone : ingest_one U P today [] c =
          ([(normalize_text c.trigger, entryAt U P today c 1)], none) := by
        rw [ingest_one, if_neg hguard]
        simp only [alGet, alSet]
        refine congrArg (fun e => ([(normalize_text c.trigger, e)], none)) ?_
        rw [entryAt, statusAt]
        simp
      constructor
      · show (ingest U P today (ingestState U P today c 0) [c]).1 = _
        rw [show ingestState U P today c 0 = [] from rfl]
        simp only [ingest, hone]
      · rw [ingestPromoted, show ingestState U P today c 0 = [] from rfl]
        simp only [ingest, hone]
        rw [if_neg]
        · rfl
        · rintro ⟨h1, -⟩
          rw [Nat.cast_one] at h1
          exact absurd (lt_of_lt_of_le hP h1) (lt_irrefl _)
  | succ k ih =>
      obtain ⟨ihS, -⟩ := ih
      -- evaluate `ingest_one` on the single existing entry
      have hget : alGet (normalize_text c.trigger)
          (ingestState U P today c (k+1)) = some (entryAt U P today c (k+1)) := by
        rw [ihS, alGet, if_pos rfl]
      have hdec :
          (if (entryAt U P today c (k+1)).status = "permanent"
            then (entryAt U P today c (k+1)).weight
            else apply_decay (entryAt U P today c (k+1)).weight
              (days_since today (entryAt U P today c (k+1)).lastSeen)) =
            ((k+1 : ℕ) : ℝ) := by
        by_cases h : (entryAt U P today c (k+1)).status = "permanent"
        · rw [if_pos h]
          rfl
        · rw [if_neg h]
          show apply_decay ((k+1 : ℕ) : ℝ) (days_since today today) = _
          exact apply_decay_same_day _ today
      have hw : ((k+1 : ℕ) : ℝ) + 1 = ((k+2 : ℕ) : ℝ) := by push_cast; ring
      have hperm_iff := statusAt_perm_iff U P (k+1) hP (Nat.le_add_left 1 k)
      have hstep : ¬ (entryAt U P today c (k+1)).steps.length < c.steps.length := by
        show ¬ c.steps.length < c.steps.length
        omega
      have htitle : (if c.title = "" then (entryAt U P today c (k+1)).title
          else c.title) = c.title := by
        by_cases h : c.title = ""
        · rw [if_pos h]; show c.title = c.title; rfl
        · rw [if_neg h]
      have hstat :
          (if (entryAt U P today c (k+1)).status = "permanent" then "permanent"
           else if P ≤ ((k+2 : ℕ) : ℝ) then "permanent"
           else if U ≤ ((k+2 : ℕ) : ℝ) then "usable"
           else "candidate") = statusAt U P (k+2) := by
        have hes : (entryAt U P today c (k+1)).status = statusAt U P (k+1) := rfl
        rw [hes]
        by_cases h : P ≤ ((k+1 : ℕ) : ℝ)
        · rw [if_pos (hperm_iff.mpr h), statusAt,
            if_neg (show ¬ (k + 2 = 1) by omega),
            if_pos (show P ≤ ((k+2 : ℕ) : ℝ) by push_cast; push_cast at h; linarith)]
        · rw [if_neg (fun hc => h (hperm_iff.mp hc)), statusAt,
            if_neg (show ¬ (k + 2 = 1) by omega)]
      have hnewperm : statusAt U P (k+2) = "permanent" ↔ P ≤ ((k+2 : ℕ) : ℝ) :=
        statusAt_perm_iff U P (k+2) hP (by omega)
      have hone : ingest_one U P today (ingestState U P today c (k+1)) c =
          ([(normalize_text c.trigger, entryAt U P today c (k+2))],
            if P ≤ ((k+2 : ℕ) : ℝ) ∧ ¬ P ≤ ((k+1 : ℕ) : ℝ)
            then some (entryAt U P today c (k+2)) else none) := by
        rw [ingest_one, if_neg hguard]
        simp only [hget]
        simp only [hdec, hw, hstep, if_false, htitle]
        rw [ihS]
        have hround : round2 ((k+2 : ℕ) : ℝ) = ((k+2 : ℕ) : ℝ) :=
          round2_natCast (k+2)
        simp only [hstat, hround]
        refine congrArg₂ Prod.mk ?_ ?_
        · simp only [alSet, if_true]
          rfl
        · by_cases hnew : statusAt U P (k+2) = "permanent"
          · by_cases hold : (entryAt U P today c (k+1)).status = "permanent"
            · rw [if_neg (by
                rintro ⟨-, hnp⟩
                exact hnp hold), if_neg (by
                rintro ⟨-, hcontra⟩
                exact hcontra (hperm_iff.mp hold))]
            · rw [if_pos ⟨hnew, hold⟩, if_pos
                ⟨hnewperm.mp hnew, fun hc => hold (hperm_iff.mpr hc)⟩]
              rfl
          · rw [if_neg (by rintro ⟨hc, -⟩; exact hnew hc), if_neg (by
              rintro ⟨hc, -⟩
              exact hnew (hnewperm.mpr hc))]
      refine ⟨?_, ?_⟩
      · show (ingest U P today (ingestState U P today c (k+1)) [c]).1 = _
        simp only [ingest, hone]
      · rw [ingestPromoted]
        simp only [ingest, hone]
        by_cases hc : P ≤ ((k+2 : ℕ) : ℝ) ∧ ¬ P ≤ ((k+1 : ℕ) : ℝ)
        · rw [if_pos hc, if_pos (by exact_mod_cast hc)]
          rfl
        · rw [if_neg hc, if_neg (by exact_mod_cast hc)]
          rfl

/-- C4: same-day repeated ingestion of one candidate.  After the first call
the entry is stored at weight 1.0 / status candidate; after the third call
(usable threshold 3, permanent threshold above 3) it has weight exactly 3.0
and status usable; and the entry appears in the promoted list of exactly the
first call whose updated weight reaches the permanent threshold, and of no
later call. -/
theorem ingest_weight_accumulation (U P : ℝ) (today : ℤ) (c : Procedure)
    (hU : U = 3) (hP : (3:ℝ) < P) (htr : ¬ c.trigger = "")
    (hst : ¬ c.steps = []) :
    alGet (normalize_text c.trigger) (ingestState U P today c 1) =
      some { title := c.title, trigger := c.trigger, steps := c.steps,
             weight := 1, status := "candidate", firstSeen := c.firstSeen,
             lastSeen := today } ∧
    alGet (normalize_text c.trigger) (ingestState U P today c 3) =
      some { title := c.title, trigger := c.trigger, steps := c.steps,
             weight := 3, status := "usable", firstSeen := c.firstSeen,
             lastSeen := today } ∧
    (∀ k : ℕ, ingestPromoted U P today c k =
      (if P ≤ ((k+1 : ℕ) : ℝ) ∧ ¬ P ≤ ((k : ℕ) : ℝ)
       then [entryAt U P today c (k+1)] else [])) := by
  have hP1 : (1:ℝ) < P := lt_trans (by norm_num) hP
  have hspec := ingestState_spec U P today c hP1 htr hst
  refine ⟨?_, ?_, fun k => (hspec k).2⟩
  · rw [(hspec 0).1, alGet, if_pos rfl]
    refine congrArg some ?_
    rw [entryAt, statusAt]
    simp
  · rw [show (3:ℕ) = 2 + 1 from rfl, (hspec 2).1, alGet, if_pos rfl]
    refine congrArg some ?_
    rw [entryAt, statusAt]
    rw [if_neg (by omega), if_neg (by push_cast; linarith), if_pos (by
      rw [hU]; norm_num)]
    norm_num

/-- C4 witness: usable threshold 3, permanent threshold 10, a concrete
candidate ingested repeatedly on day 0. -/
theorem ingest_weight_accumulation_witness :
    ((3:ℝ) = 3 ∧ (3:ℝ) < 10 ∧
      ¬ ("deploy app" : String) = "" ∧ ¬ (["a", "b", "c"] : List String) = []) ∧
    (alGet (normalize_text "deploy app")
        (ingestState 3 10 0
          { title := "T", trigger := "deploy app", steps := ["a", "b", "c"],
            weight := 1, status := "candidate", firstSeen := 0, lastSeen := 0 } 1) =
      some { title := "T", trigger := "deploy app", steps := ["a", "b", "c"],
             weight := 1, status := "candidate", firstSeen := 0, lastSeen := 0 } ∧
      alGet (normalize_text "deploy app")
        (ingestState 3 10 0
          { title := "T", trigger := "deploy app", steps := ["a", "b", "c"],
            weight := 1, status := "candidate", firstSeen := 0, lastSeen := 0 } 3) =
      some { title := "T", trigger := "deploy app", steps := ["a", "b", "c"],
             weight := 3, status := "usable", firstSeen := 0, lastSeen := 0 } ∧
      (∀ k : ℕ, ingestPromoted 3 10 0
          { title := "T", trigger := "deploy app", steps := ["a", "b", "c"],
            weight := 1, status := "candidate", firstSeen := 0, lastSeen := 0 } k =
        (if (10:ℝ) ≤ ((k+1 : ℕ) : ℝ) ∧ ¬ (10:ℝ) ≤ ((k : ℕ) : ℝ)
         then [entryAt 3 10 0
            { title := "T", trigger := "deploy app", steps := ["a", "b", "c"],
              weight := 1, status := "candidate", firstSeen := 0, lastSeen := 0 }
            (k+1)] else []))) :=
  ⟨⟨rfl, by norm_num, by simp, by simp⟩,
    ingest_weight_accumulation 3 10 0
      { title := "T", trigger := "deploy app", steps := ["a", "b", "c"],
        weight := 1, status := "candidate", firstSeen := 0, lastSeen := 0 }
      rfl (by norm_num) (by simp) (by simp)⟩

/-- C5: a non-permanent procedure's effective weight is the stored weight
times `2^(-days/30)` where `days` is the (clamped) number of days since
`last_seen`; a stored weight of 4.0 last seen exactly 30 days ago gives
effective weight 2.0; and a permanent procedure's effective weight equals
its stored weight for every elapsed time. -/
theorem effective_weight_spec :
    (∀ (p : Procedure) (today : ℤ), ¬ p.status = "permanent" →
      p.effective_weight today =
        p.weight * (2 : ℝ) ^ (-((days_since today p.lastSeen : ℤ) : ℝ) / 30)) ∧
    Procedure.effective_weight
      { title := "T", trigger := "t", steps := [], weight := 4,
        status := "candidate", firstSeen := 0, lastSeen := 0 } 30 = 2 ∧
    (∀ (p : Procedure) (today : ℤ), p.status = "permanent" →
      p.effective_weight today = p.weight) := by
  have hgen : ∀ (p : Procedure) (today : ℤ), ¬ p.status = "permanent" →
      p.effective_weight today =
        p.weight * (2 : ℝ) ^ (-((days_since today p.lastSeen : ℤ) : ℝ) / 30) := by
    intro p today hs
    rw [Procedure.effective_weight, if_neg hs, apply_decay]
    by_cases hd : days_since today p.lastSeen ≤ 0
    · rw [if_pos hd]
      have h0 : days_since today p.lastSeen = 0 :=
        le_antisymm hd (le_max_left 0 _)
      rw [h0]
      norm_num
    · rw [if_neg hd, halfLifeDays]
  refine ⟨hgen, ?_, ?_⟩
  · rw [hgen _ 30 (by decide)]
    have hd : days_since 30 (0 : ℤ) = 30 := by rw [days_since]; norm_num
    rw [hd, show (-(((30:ℤ) : ℝ)) / 30 : ℝ) = -1 by push_cast; norm_num,
      Real.rpow_neg_one]
    norm_num
  · intro p today hs
    rw [Procedure.effective_weight, if_pos hs]

/-- C5 witness: the general decay law applied at days = 40, the half-life
boundary instance, and a permanent procedure at a large elapsed time. -/
theorem effective_weight_spec_witness :
    (¬ ("candidate" : String) = "permanent" ∧
      Procedure.effective_weight
        { title := "T", trigger := "t", steps := [], weight := 5,
          status := "candidate", firstSeen := 0, lastSeen := 10 } 50 =
        5 * (2 : ℝ) ^ (-((days_since 50 10 : ℤ) : ℝ) / 30)) ∧
    (("permanent" : String) = "permanent" ∧
      Procedure.effective_weight
        { title := "T", trigger := "t", steps := [], weight := 7,
          status := "permanent", firstSeen := 0, lastSeen := 0 } 999 = 7) :=
  ⟨⟨by decide, effective_weight_spec.1
      { title := "T", trigger := "t", steps := [], weight := 5,
        status := "candidate", firstSeen := 0, lastSeen := 10 } 50 (by decide)⟩,
    ⟨rfl, effective_weight_spec.2.2
      { title := "T", trigger := "t", steps := [], weight := 7,
        status := "permanent", firstSeen := 0, lastSeen := 0 } 999 rfl⟩⟩

/-- C6: `register_run` raises a validation error — and therefore mutates
neither the run table nor its persisted file, since every validation
precedes the mutation — whenever any of parent id, child id, task or parent
session id is blank after trimming, the timeout is not positive, or the
trimmed parent equals the trimmed child; in particular
`register_run(parent="a", child="a", ...)` always fails. -/
theorem register_run_rejects (st : List (String × SubagentRun))
    (parent child task psess : String) (timeout : ℚ)
    (rid sid : String) (now : ℚ)
    (hbad : pyStrip parent = "" ∨ pyStrip child = "" ∨ pyStrip task = "" ∨
      pyStrip psess = "" ∨ timeout ≤ 0 ∨ pyStrip parent = pyStrip child) :
    ∃ e, register_run st parent child task psess timeout rid sid now =
      .error e := by
  simp only [register_run]
  by_cases h1 : pyStrip parent = ""
  · rw [if_pos h1]; exact ⟨_, rfl⟩
  · rw [if_neg h1]
    by_cases h2 : pyStrip child = ""
    · rw [if_pos h2]; exact ⟨_, rfl⟩
    · rw [if_neg h2]
      by_cases h3 : pyStrip task = ""
      · rw [if_pos h3]; exact ⟨_, rfl⟩
      · rw [if_neg h3]
        by_cases h4 : pyStrip psess = ""
        · rw [if_pos h4]; exact ⟨_, rfl⟩
        · rw [if_neg h4]
          by_cases h5 : timeout ≤ 0
          · rw [if_pos h5]; exact ⟨_, rfl⟩
          · rw [if_neg h5]
            by_cases h6 : pyStrip parent = pyStrip child
            · rw [if_pos h6]; exact ⟨_, rfl⟩
            · rcases hbad with h | h | h | h | h | h
              · exact absurd h h1
              · exact absurd h h2
              · exact absurd h h3
              · exact absurd h h4
              · exact absurd h h5
              · exact absurd h h6

/-- C6 witness: self-delegation `parent = child = "a"` is always rejected,
whatever the table, task, session and timeout. -/
theorem register_run_rejects_witness :
    (pyStrip "a" = pyStrip "a") ∧
    ∃ e, register_run [] "a" "a" "do something" "session-1" 30 "rid-1" "abc" 0 =
      .error e :=
  ⟨rfl, register_run_rejects [] "a" "a" "do something" "session-1" 30 "rid-1"
    "abc" 0 (Or.inr (Or.inr (Or.inr (Or.inr (Or.inr rfl)))))⟩

theorem check_timeouts_eq (now : ℚ) (st : List (String × SubagentRun)) :
    check_timeouts now st =
      ((st.filter (fun kr => isExpired now kr.2)).map
          (fun kr => expireRun now kr.2),
        st.map (fun kr =>
          (kr.1, if isExpired now kr.2 then expireRun now kr.2 else kr.2))) := by
  induction st with
  | nil => rfl
  | cons kr rest ih =>
      obtain ⟨k, r⟩ := kr
      rw [check_timeouts]
      by_cases h : isExpired now r
      · simp [ih, h, List.filter_cons]
      · simp [ih, h, List.filter_cons]

/-- Entries of a key-Nodup association list with equal keys are equal. -/
theorem nodup_key_unique {l : List (String × SubagentRun)}
    (hnd : (l.map Prod.fst).Nodup) {k : String} {a b : SubagentRun}
    (ha : (k, a) ∈ l) (hb : (k, b) ∈ l) : a = b := by
  induction l with
  | nil => cases ha
  | cons kr rest ih =>
      obtain ⟨k0, v0⟩ := kr
      rw [List.map_cons, List.nodup_cons] at hnd
      rcases List.mem_cons.mp ha with h1 | h1 <;>
        rcases List.mem_cons.mp hb with h2 | h2
      · injection h1 with hk1 hv1
        injection h2 with hk2 hv2
        rw [hv1, hv2]
      · injection h1 with hk1 hv1
        exact absurd (List.mem_map.mpr ⟨(k, b), h2, rfl⟩ : k ∈ rest.map Prod.fst)
          (by rw [hk1]; exact hnd.1)
      · injection h2 with hk2 hv2
        exact absurd (List.mem_map.mpr ⟨(k, a), h1, rfl⟩ : k ∈ rest.map Prod.fst)
          (by rw [hk2]; exact hnd.1)
      · exact ih hnd.2 h1 h2

/-- C7: `check_timeouts` transitions exactly the `RUNNING` runs whose age
strictly exceeds their own timeout to `TIMED_OUT` (with the generated error
message and completion timestamp `now`) and returns exactly those runs, in
table order; and — under the dict invariants (unique keys, key = run id) —
no run it returns is ever returned by a later sweep, because its status is
no longer `RUNNING`. -/
theorem check_timeouts_spec (now : ℚ) (st : List (String × SubagentRun)) :
    check_timeouts now st =
      ((st.filter (fun kr => isExpired now kr.2)).map
          (fun kr => expireRun now kr.2),
        st.map (fun kr =>
          (kr.1, if isExpired now kr.2 then expireRun now kr.2 else kr.2))) ∧
    (∀ r ∈ (check_timeouts now st).1, r.status = RunStatus.timedOut ∧
      r.error = some (timeoutMessage r.timeoutS) ∧
      r.completedAt = some now) ∧
    ((st.map Prod.fst).Nodup →
      (∀ kr ∈ st, (kr : String × SubagentRun).2.runId = kr.1) →
      ∀ (now' : ℚ) (r : SubagentRun), r ∈ (check_timeouts now st).1 →
        ∀ r' ∈ (check_timeouts now' (check_timeouts now st).2).1,
          ¬ r'.runId = r.runId) := by
  refine ⟨check_timeouts_eq now st, ?_, ?_⟩
  · intro r hr
    rw [check_timeouts_eq] at hr
    obtain ⟨⟨k, v⟩, -, hre⟩ := List.mem_map.mp hr
    rw [← hre]
    exact ⟨rfl, rfl, rfl⟩
  · intro hnd hkey now' r hr r' hr' heq
    rw [check_timeouts_eq] at hr hr'
    obtain ⟨⟨k, v⟩, hmemf, hre⟩ := List.mem_map.mp hr
    obtain ⟨hmem, hexp⟩ := List.mem_filter.mp hmemf
    obtain ⟨⟨k', v'⟩, hmemf', hre'⟩ := List.mem_map.mp hr'
    obtain ⟨hmem', hexp'⟩ := List.mem_filter.mp hmemf'
    rw [check_timeouts_eq] at hmem'
    simp only at hmem'
    obtain ⟨⟨k0, v0⟩, hmem0, hg⟩ := List.mem_map.mp hmem'
    simp only at hg
    obtain ⟨hgk, hgv⟩ := Prod.mk.injEq _ _ _ _ ▸ hg
    simp only at hexp hexp'
    -- run ids
    have hrid : r.runId = k := by
      rw [← hre]
      show v.runId = k
      exact hkey (k, v) hmem
    have hv'run : v'.runId = v0.runId := by
      rw [← hgv]
      by_cases hE2 : isExpired now v0 = true
      · rw [if_pos hE2]; rfl
      · rw [if_neg hE2]
    have hrid' : r'.runId = k0 := by
      rw [← hre']
      show v'.runId = k0
      rw [hv'run]
      exact hkey (k0, v0) hmem0
    by_cases hE : isExpired now v0 = true
    · -- the entry at k0 was transitioned in sweep 1, so its status is
      -- TIMED_OUT and it cannot pass the RUNNING filter of sweep 2
      have hv' : v' = expireRun now v0 := by rw [← hgv, if_pos hE]
      rw [isExpired, hv'] at hexp'
      simp [expireRun] at hexp'
    · -- not transitioned: then v0 = v (same key, unique keys), but v was
      -- expired in sweep 1 — contradiction
      have hk0 : k0 = k := by
        rw [← hrid', ← hrid]
        exact heq
      rw [hk0] at hmem0
      have hveq : v0 = v := nodup_key_unique hnd hmem0 hmem
      rw [hveq] at hE
      exact hE hexp

/-- C7 witness: at `now = 20` the run (age 20 > timeout 10) is reported and
transitioned; a sweep at `now' = 30` reports no run with its id. -/
theorem check_timeouts_spec_witness :
    ((([("r1", run0)] : List (String × SubagentRun)).map Prod.fst).Nodup ∧
      (∀ kr ∈ ([("r1", run0)] : List (String × SubagentRun)),
        (kr : String × SubagentRun).2.runId = kr.1) ∧
      expireRun 20 run0 ∈ (check_timeouts 20 [("r1", run0)]).1) ∧
    (∀ r' ∈ (check_timeouts 30 (check_timeouts 20 [("r1", run0)]).2).1,
      ¬ r'.runId = (expireRun 20 run0).runId) := by
  have hnd : (([("r1", run0)] : List (String × SubagentRun)).map Prod.fst).Nodup := by
    simp
  have hkey : ∀ kr ∈ ([("r1", run0)] : List (String × SubagentRun)),
      (kr : String × SubagentRun).2.runId = kr.1 := by
    intro kr hkr
    rcases List.mem_singleton.mp hkr with h
    rw [h]
    rfl
  have hexp : isExpired 20 run0 = true := by
    rw [isExpired, if_pos (show run0.status = RunStatus.running from rfl),
      if_neg (show ¬ ((20:ℚ) - run0.createdAt ≤ run0.timeoutS) by
        show ¬ ((20:ℚ) - 0 ≤ 10)
        norm_num)]
  have hmem : expireRun 20 run0 ∈ (check_timeouts 20 [("r1", run0)]).1 := by
    rw [check_timeouts_eq]
    simp only [List.filter_cons]
    rw [show isExpired 20 (("r1", run0) : String × SubagentRun).2 = true from hexp]
    simp
  exact ⟨⟨hnd, hkey, hmem⟩,
    (check_timeouts_spec 20 [("r1", run0)]).2.2 hnd hkey 30
      (expireRun 20 run0) hmem⟩

/-- Lock ownership invariant: a task inside the backend call holds the
lock. -/
theorem assign_lock_inv {ι : Type} [DecidableEq ι] (s : AssignSystem ι)
    (hs : AssignReachable s) :
    ∀ i, s.pc i = AssignPc.inCall → s.holder = some i := by
  induction hs with
  | refl => intro i h; exact absurd h (by simp [assignInit])
  | tail hprev hstep ih =>
      cases hstep with
      | start i h =>
          intro i' h'
          simp only at h' ⊢
          by_cases he : i' = i
          · rw [if_pos he] at h'; cases h'
          · rw [if_neg he] at h'
            exact ih i' h'
      | acquire i h hfree =>
          intro i' h'
          simp only at h' ⊢
          by_cases he : i' = i
          · rw [he]
          · rw [if_neg he] at h'
            rw [ih i' h'] at hfree
            cases hfree
      | finish i h =>
          intro i' h'
          simp only at h' ⊢
          by_cases he : i' = i
          · rw [if_pos he] at h'; cases h'
          · rw [if_neg he] at h'
            have h1 := ih i' h'
            have h2 := ih i h
            rw [h1] at h2
            injection h2 with h3
            exact absurd h3 he

/-- C9: per-agent mutual exclusion.  In every reachable event-loop state,
no two distinct `assign` coroutines on the same agent runtime are inside
the underlying backend call at the same time: the per-agent lock serializes
them, so the two backend executions never overlap. -/
theorem assign_mutual_exclusion {ι : Type} [DecidableEq ι]
    (s : AssignSystem ι) (hs : AssignReachable s) (i j : ι) (hij : ¬ i = j) :
    ¬ (s.pc i = AssignPc.inCall ∧ s.pc j = AssignPc.inCall) := by
  rintro ⟨hi, hj⟩
  have h1 := assign_lock_inv s hs i hi
  have h2 := assign_lock_inv s hs j hj
  rw [h1] at h2
  injection h2 with h3
  exact hij h3

/-- C9 witness: the initial state with two concurrent callers. -/
theorem assign_mutual_exclusion_witness :
    AssignReachable (assignInit Bool) ∧ ¬ (false = true) ∧
    ¬ ((assignInit Bool).pc false = AssignPc.inCall ∧
       (assignInit Bool).pc true = AssignPc.inCall) :=
  ⟨Relation.ReflTransGen.refl, by decide,
    assign_mutual_exclusion (assignInit Bool) Relation.ReflTransGen.refl
      false true (by decide)⟩

/-- Facts about every scored survivor. -/
theorem scoredOf_mem (sim : String → String → ℚ) (procedures : List Procedure)
    (query : String) (x : ℚ × Procedure)
    (hx : x ∈ scoredOf sim procedures query) :
    x.2 ∈ procedures ∧ ¬ normalize_text x.2.trigger = "" ∧
      9/20 ≤ scoreOf sim query x.2 ∧ x.1 = scoreOf sim query x.2 := by
  rw [scoredOf] at hx
  obtain ⟨p, hp, hf⟩ := List.mem_filterMap.mp hx
  by_cases h1 : normalize_text p.trigger = ""
  · rw [if_pos h1] at hf
    cases hf
  · rw [if_neg h1] at hf
    by_cases h2 : 9/20 ≤ scoreOf sim query p
    · rw [if_pos h2] at hf
      injection hf with hf2
      rw [← hf2]
      exact ⟨hp, h1, h2, rfl⟩
    · rw [if_neg h2] at hf
      cases hf

/-- Inserting into the sorted tail never reorders equal-score entries:
elements skipped by `orderedInsert` have strictly larger scores. -/
theorem filter_orderedInsert (c : ℚ) (a : ℚ × Procedure)
    (l : List (ℚ × Procedure)) :
    (List.orderedInsert scoreGE a l).filter (fun x => decide (x.1 = c)) =
      if a.1 = c then a :: l.filter (fun x => decide (x.1 = c))
      else l.filter (fun x => decide (x.1 = c)) := by
  induction l with
  | nil =>
      rw [List.orderedInsert]
      by_cases h : a.1 = c <;> simp [List.filter_cons, h]
  | cons b l ih =>
      rw [List.orderedInsert]
      by_cases hr : scoreGE a b
      · rw [if_pos hr]
        by_cases h : a.1 = c <;> simp [List.filter_cons, h]
      · rw [if_neg hr]
        by_cases h : a.1 = c
        · have hb : ¬ (b.1 = c) := by
            intro hbc
            apply hr
            show b.1 ≤ a.1
            rw [hbc, h]
          simp [List.filter_cons, h, hb, ih]
        · simp [List.filter_cons, h, ih]

/-- Stability of the model sort: for each score value, the survivors with
that score appear in the sorted list in their discovery order. -/
theorem insertionSort_filter_score (c : ℚ) (l : List (ℚ × Procedure)) :
    (List.insertionSort scoreGE l).filter (fun x => decide (x.1 = c)) =
      l.filter (fun x => decide (x.1 = c)) := by
  induction l with
  | nil => rfl
  | cons a l ih =>
      rw [List.insertionSort, filter_orderedInsert, List.filter_cons]
      by_cases h : a.1 = c <;> simp [h, ih]

/-- C8 (amended): `match_query` scores each procedure with a non-empty
normalized trigger (1.0 for a trigger-substring of the query, else 0.9
for a non-empty query-substring of the trigger, else the max of the token
Jaccard overlap and 0.8 × the sequence-similarity ratio), discards scores
below 0.45, and returns the survivors sorted by score descending with ties
in discovery order, capped at `max(1, limit)` — not at `limit`: a limit of
0 (or below) still yields up to one procedure, see the counterexample. -/
theorem match_query_spec (sim : String → String → ℚ)
    (procedures : List Procedure) (query : String) (limit : ℤ) :
    match_query sim procedures query limit =
      ((List.insertionSort scoreGE (scoredOf sim procedures query)).map
          Prod.snd).take (max 1 limit).toNat ∧
    (match_query sim procedures query limit).length ≤ (max 1 limit).toNat ∧
    (∀ p ∈ match_query sim procedures query limit,
      p ∈ procedures ∧ ¬ normalize_text p.trigger = "" ∧
        9/20 ≤ scoreOf sim query p) ∧
    (match_query sim procedures query limit).Pairwise
      (fun p q => scoreOf sim query q ≤ scoreOf sim query p) ∧
    (∀ c : ℚ,
      (List.insertionSort scoreGE (scoredOf sim procedures query)).filter
          (fun x => decide (x.1 = c)) =
        (scoredOf sim procedures query).filter (fun x => decide (x.1 = c))) := by
  refine ⟨rfl, ?_, ?_, ?_, fun c => insertionSort_filter_score c _⟩
  · rw [match_query, List.length_take]
    exact min_le_left _ _
  · intro p hp
    rw [match_query] at hp
    have hp2 := List.mem_of_mem_take hp
    obtain ⟨x, hx, hxp⟩ := List.mem_map.mp hp2
    have hx2 : x ∈ scoredOf sim procedures query :=
      (List.perm_insertionSort scoreGE _).mem_iff.mp hx
    obtain ⟨h1, h2, h3, -⟩ := scoredOf_mem sim procedures query x hx2
    rw [← hxp]
    exact ⟨h1, h2, h3⟩
  · have hsorted : (List.insertionSort scoreGE
        (scoredOf sim procedures query)).Pairwise scoreGE :=
      List.sorted_insertionSort scoreGE _
    have hscore : (List.insertionSort scoreGE
        (scoredOf sim procedures query)).Pairwise
          (fun a b => scoreOf sim query b.2 ≤ scoreOf sim query a.2) := by
      refine List.Pairwise.imp_of_mem ?_ hsorted
      intro a b ha hb hr
      have ha2 := (scoredOf_mem sim procedures query a
        ((List.perm_insertionSort scoreGE _).mem_iff.mp ha)).2.2.2
      have hb2 := (scoredOf_mem sim procedures query b
        ((List.perm_insertionSort scoreGE _).mem_iff.mp hb)).2.2.2
      rw [← ha2, ← hb2]
      exact hr
    have hmap : ((List.insertionSort scoreGE
        (scoredOf sim procedures query)).map Prod.snd).Pairwise
          (fun p q => scoreOf sim query q ≤ scoreOf sim query p) :=
      List.pairwise_map.mpr hscore
    exact hmap.sublist (List.take_sublist _ _)

theorem scoreOf_pDeploy :
    scoreOf (fun _ _ => 0) "please Deploy App now" pDeploy = 1 := by
  rw [scoreOf]
  rw [if_pos (by decide)]

theorem scoredOf_pDeploy :
    scoredOf (fun _ _ => 0) [pDeploy] "please Deploy App now" = [(1, pDeploy)] := by
  rw [scoredOf, List.filterMap]
  simp only [scoreOf_pDeploy]
  rw [if_neg (by decide), if_pos (by norm_num)]
  rfl

/-- On the one-procedure example every cap value returns the single
match. -/
theorem match_query_pDeploy (limit : ℤ) :
    match_query (fun _ _ => 0) [pDeploy] "please Deploy App now" limit =
      [pDeploy] := by
  rw [match_query, scoredOf_pDeploy]
  rw [show List.insertionSort scoreGE [((1 : ℚ), pDeploy)] = [(1, pDeploy)] from rfl]
  rw [List.map_cons, List.map_nil]
  have h1 : 1 ≤ (max 1 limit).toNat := by
    have := le_max_left 1 limit
    omega
  match hn : (max 1 limit).toNat with
  | 0 => omega
  | m + 1 => rw [List.take_succ_cons, List.take_nil]

/-- C8 counterexample: with `limit = 0` the claim says the result holds at
most 0 procedures, but the code caps at `max(1, limit)` and returns one
match. -/
theorem match_query_limit_zero :
    ¬ ((match_query (fun _ _ => 0) [pDeploy] "please Deploy App now" 0).length
        ≤ 0) := by
  rw [match_query_pDeploy 0]
  simp

/-- C8 witness: the amended theorem at the concrete example with
`limit = 3`, plus the membership instance for its returned procedure. -/
theorem match_query_spec_witness :
    pDeploy ∈ match_query (fun _ _ => 0) [pDeploy] "please Deploy App now" 3 ∧
    (match_query (fun _ _ => 0) [pDeploy] "please Deploy App now" 3).length ≤
      (max 1 (3:ℤ)).toNat ∧
    (pDeploy ∈ ([pDeploy] : List Procedure) ∧
      ¬ normalize_text pDeploy.trigger = "" ∧
      9/20 ≤ scoreOf (fun _ _ => 0) "please Deploy App now" pDeploy) := by
  have hmem : pDeploy ∈ match_query (fun _ _ => 0) [pDeploy]
      "please Deploy App now" 3 := by
    rw [match_query_pDeploy 3]
    exact List.mem_singleton.mpr rfl
  obtain ⟨-, hlen, hmemf, -, -⟩ :=
    match_query_spec (fun _ _ => 0) [pDeploy] "please Deploy App now" 3
  exact ⟨hmem, hlen, hmemf pDeploy hmem⟩

end G3
